import Mathlib

/-!
Verification of the gitdoc-ai repository core against its specification.

Strings of the TypeScript source are modelled as `List Char`.  Each Lean
definition is a shallow embedding of the identically-named function of the
source; external collaborators (the VCS gateway, the AI provider backends,
the filesystem, the clock) are modelled as explicit environment records whose
fields give the results of the corresponding external calls.
-/

namespace GitDocAI

/-! ## Embedding of src/ai/prompt.ts -/

/-- The backtick character, written via its code point. -/
def backquoteChar : Char := Char.ofNat 96

/-- The double-quote character, written via its code point. -/
def dquoteChar : Char := Char.ofNat 34

/-- The single-quote character, written via its code point. -/
def squoteChar : Char := Char.ofNat 39

/-- The whitespace class of JavaScript (`\s` in regular expressions and the
characters stripped by `String.prototype.trim`). -/
def jsWs (c : Char) : Bool :=
  c = ' ' ∨ c = '\t' ∨ c = '\n' ∨ c = '\r' ∨ c = Char.ofNat 11 ∨ c = Char.ofNat 12 ∨
    c = Char.ofNat 160 ∨ c = Char.ofNat 0x1680 ∨
    (Char.ofNat 0x2000 ≤ c ∧ c ≤ Char.ofNat 0x200a) ∨
    c = Char.ofNat 0x2028 ∨ c = Char.ofNat 0x2029 ∨ c = Char.ofNat 0x202f ∨
    c = Char.ofNat 0x205f ∨ c = Char.ofNat 0x3000 ∨ c = Char.ofNat 0xfeff

/-- JavaScript `String.prototype.trim`: drop leading and trailing whitespace. -/
def jsTrim (l : List Char) : List Char :=
  ((l.dropWhile jsWs).reverse.dropWhile jsWs).reverse

/-- JavaScript `replace(/\s+/g, " ")`: every maximal run of whitespace becomes
one space.  The single space of a run is emitted when the run ends. -/
def jsCollapse : List Char → List Char
  | [] => []
  | [c] => if jsWs c then [' '] else [c]
  | c :: d :: t =>
    if jsWs c then
      if jsWs d then jsCollapse (d :: t) else ' ' :: jsCollapse (d :: t)
    else c :: jsCollapse (d :: t)

/-- Index of the first newline of a list, if any. -/
def firstNl : List Char → Option Nat
  | [] => none
  | c :: t => if c = '\n' then some 0 else (firstNl t).map (· + 1)

/-- The closing text `"\n⋯"` of a fenced block: a newline followed by three
backticks. -/
def fenceClose : List Char := '\n' :: backquoteChar :: backquoteChar :: [backquoteChar]

/-- Three backticks, the opening of a markdown code fence. -/
def fenceOpen : List Char := backquoteChar :: backquoteChar :: [backquoteChar]

/-- Where `cleaned.replace(/^⋯[\s\S]*?\n([\s\S]*?)\n⋯$/g, "$1")` matches: the
string must start with three backticks, end with a newline followed by three
backticks, and its first newline after the opening fence must leave room for
the closing fence.  Returns the start index of the captured group. -/
def fenceInfo (l : List Char) : Option Nat :=
  match firstNl (l.drop 3) with
  | none => none
  | some r =>
    if l.take 3 = fenceOpen ∧ l.drop (l.length - 4) = fenceClose ∧ 3 + r + 5 ≤ l.length
    then some (3 + r + 1) else none

/-- The code-fence replacement of `normalizeCommitMessage`: when the fence
regular expression matches, the whole string is replaced by the captured
group (the text between the first newline and the closing fence). -/
def fenceReplace (l : List Char) : List Char :=
  match fenceInfo l with
  | none => l
  | some s => (l.drop s).take (l.length - 4 - s)

/-- One quote-stripping step of `normalizeCommitMessage`: if the string starts
and ends with the character `q`, remove the first and last character and trim. -/
def stripWrap (q : Char) (l : List Char) : List Char :=
  if l.head? = some q ∧ l.getLast? = some q then jsTrim (l.drop 1).dropLast else l

/-- `normalizeCommitMessage` of src/ai/prompt.ts: trim, strip a markdown code
fence, strip one layer of surrounding backticks, then double quotes, then
single quotes, and collapse all whitespace runs to single spaces. -/
def normalizeCommitMessage (message : List Char) : List Char :=
  let c1 := jsTrim message
  let c2 := jsTrim (fenceReplace c1)
  let c3 := stripWrap backquoteChar c2
  let c4 := stripWrap dquoteChar c3
  let c5 := stripWrap squoteChar c4
  jsTrim (jsCollapse c5)

/-- The truncation marker appended by `truncateDiffForAI`. -/
def truncMarker : List Char := "\n... (diff truncated)".data

/-- The effective cap of `truncateDiffForAI`: `Math.max(500, configured)`,
where a missing or non-finite configured value defaults to 200000.  The
configured value is modelled as `Option Int`, `none` standing for an absent
or non-finite JavaScript number. -/
def effectiveDiffCap (maxDiffChars : Option Int) : Int :=
  max 500 (maxDiffChars.getD 200000)

/-- `truncateDiffForAI` of src/ai/prompt.ts: return the diff unchanged when it
is within the cap, else its first `cap` characters followed by the marker. -/
def truncateDiffForAI (diff : List Char) (maxDiffChars : Option Int) : List Char :=
  let maxDiffLength := effectiveDiffCap maxDiffChars
  if (diff.length : Int) > maxDiffLength
  then diff.take maxDiffLength.toNat ++ truncMarker
  else diff


/-- Adjacent characters are never both whitespace. -/
def noWsRun (l : List Char) : Prop :=
  List.Chain' (fun c d => ¬(jsWs c = true ∧ jsWs d = true)) l

theorem jsCollapse_head_of_not_ws (d : Char) (t : List Char) (h : jsWs d = false) :
    (jsCollapse (d :: t)).head? = some d := by
  cases t with
  | nil => simp [jsCollapse, h]
  | cons e t => simp [jsCollapse, h]

theorem jsCollapse_ws_eq_space (l : List Char) :
    ∀ c ∈ jsCollapse l, jsWs c = true → c = ' ' := by
  induction l with
  | nil => simp [jsCollapse]
  | cons c t ih =>
    cases t with
    | nil =>
      by_cases h : jsWs c = true
      · simp [jsCollapse, h]
      · simp only [Bool.not_eq_true] at h
        simp [jsCollapse, h]
    | cons d t =>
      by_cases h : jsWs c = true
      · by_cases hd : jsWs d = true
        · simpa [jsCollapse, h, hd] using ih
        · simp only [Bool.not_eq_true] at hd
          intro x hx hw
          simp [jsCollapse, h, hd] at hx
          rcases hx with rfl | hx
          · rfl
          · exact ih x hx hw
      · simp only [Bool.not_eq_true] at h
        intro x hx hw
        simp [jsCollapse, h] at hx
        rcases hx with rfl | hx
        · rw [h] at hw; cases hw
        · exact ih x hx hw

theorem jsCollapse_noWsRun (l : List Char) : noWsRun (jsCollapse l) := by
  induction l with
  | nil => simp [jsCollapse, noWsRun]
  | cons c t ih =>
    cases t with
    | nil =>
      by_cases h : jsWs c = true <;>
        simp [jsCollapse, h, noWsRun] at ih ⊢
    | cons d t =>
      by_cases h : jsWs c = true
      · by_cases hd : jsWs d = true
        · simpa [jsCollapse, h, hd] using ih
        · simp only [Bool.not_eq_true] at hd
          simp only [jsCollapse, h, if_true, hd, if_false, Bool.false_eq_true]
          rw [noWsRun, List.chain'_cons']
          refine ⟨?_, ih⟩
          intro y hy
          rw [jsCollapse_head_of_not_ws d t hd] at hy
          simp at hy
          subst hy
          simp [hd]
      · simp only [Bool.not_eq_true] at h
        simp only [jsCollapse, h, Bool.false_eq_true, if_false]
        rw [noWsRun, List.chain'_cons']
        refine ⟨?_, ih⟩
        intro y _
        simp [h]

theorem jsTrim_within (l : List Char) : jsTrim l <:+: l := by
  have h1 : l.dropWhile jsWs <:+ l := List.dropWhile_suffix jsWs
  have h2 : jsTrim l <+: l.dropWhile jsWs := by
    rw [jsTrim]
    have := List.dropWhile_suffix (l := (l.dropWhile jsWs).reverse) jsWs
    rw [← List.reverse_prefix] at this
    simpa using this
  exact h2.isInfix.trans h1.isInfix

theorem head?_dropWhile_not_ws (l : List Char) :
    ∀ c, (l.dropWhile jsWs).head? = some c → jsWs c = false := by
  induction l with
  | nil => intro c h; simp [List.dropWhile] at h
  | cons x t ih =>
    intro c h
    by_cases hx : jsWs x = true
    · rw [List.dropWhile_cons_of_pos hx] at h
      exact ih c h
    · rw [List.dropWhile_cons_of_neg hx] at h
      simp at h
      subst h
      simpa using hx

theorem jsTrim_head_not_ws (l : List Char) :
    ∀ c, (jsTrim l).head? = some c → jsWs c = false := by
  intro c h
  have hpre : jsTrim l <+: l.dropWhile jsWs := by
    rw [jsTrim]
    have := List.dropWhile_suffix (l := (l.dropWhile jsWs).reverse) jsWs
    rw [← List.reverse_prefix] at this
    simpa using this
  rcases hpre with ⟨u, hu⟩
  apply head?_dropWhile_not_ws l
  rw [← hu]
  cases hl : jsTrim l with
  | nil => rw [hl] at h; simp at h
  | cons a b =>
    rw [hl] at h
    simp at h
    simp [hl, h]

theorem jsTrim_getLast_not_ws (l : List Char) :
    ∀ c, (jsTrim l).getLast? = some c → jsWs c = false := by
  intro c h
  rw [← List.head?_reverse] at h
  rw [jsTrim, List.reverse_reverse] at h
  exact head?_dropWhile_not_ws _ c h

theorem dropWhile_eq_self_of_head (l : List Char) (p : Char → Bool)
    (h : ∀ c, l.head? = some c → p c = false) : l.dropWhile p = l := by
  cases l with
  | nil => rfl
  | cons a t =>
    have := h a rfl
    rw [List.dropWhile_cons_of_neg (by simp [this])]

theorem jsTrim_fixed (l : List Char)
    (h1 : ∀ c, l.head? = some c → jsWs c = false)
    (h2 : ∀ c, l.getLast? = some c → jsWs c = false) : jsTrim l = l := by
  rw [jsTrim, dropWhile_eq_self_of_head l jsWs h1,
    dropWhile_eq_self_of_head l.reverse jsWs (by
      intro c hc
      rw [List.head?_reverse] at hc
      exact h2 c hc), List.reverse_reverse]

theorem jsCollapse_fixed (l : List Char)
    (hsp : ∀ c ∈ l, jsWs c = true → c = ' ')
    (hrun : noWsRun l) : jsCollapse l = l := by
  induction l with
  | nil => rfl
  | cons c t ih =>
    cases t with
    | nil =>
      by_cases h : jsWs c = true
      · have : c = ' ' := hsp c (by simp) h
        simp [jsCollapse, h, this]
      · simp only [Bool.not_eq_true] at h
        simp [jsCollapse, h]
    | cons d t =>
      rw [noWsRun, List.chain'_cons'] at hrun
      by_cases h : jsWs c = true
      · have hd : jsWs d = false := by
          have := hrun.1 d (by simp)
          by_contra hcon
          simp only [Bool.not_eq_false] at hcon
          exact this ⟨h, hcon⟩
        simp only [jsCollapse, h, if_true, hd, Bool.false_eq_true, if_false]
        have hc : c = ' ' := hsp c (by simp) h
        rw [hc]
        congr 1
        exact ih (fun x hx => hsp x (by simp [hx]) ) hrun.2
      · simp only [Bool.not_eq_true] at h
        simp only [jsCollapse, h, Bool.false_eq_true, if_false]
        congr 1
        exact ih (fun x hx => hsp x (by simp [hx])) hrun.2

theorem firstNl_eq_none (l : List Char) (h : '\n' ∉ l) : firstNl l = none := by
  induction l with
  | nil => rfl
  | cons c t ih =>
    simp at h
    rw [firstNl, if_neg (fun hc => h.1 hc.symm), ih h.2]
    rfl

theorem fenceReplace_fixed (l : List Char) (h : '\n' ∉ l) : fenceReplace l = l := by
  rw [fenceReplace, fenceInfo, firstNl_eq_none _ (fun hc => h ((List.drop_subset 3 l) hc))]

/-- The output of a first normalization pass starts and ends with a wrapping
character that the quote-stripping steps of a second pass would remove. -/
def quoteWrapped (l : List Char) : Prop :=
  (l.head? = some backquoteChar ∧ l.getLast? = some backquoteChar) ∨
  (l.head? = some dquoteChar ∧ l.getLast? = some dquoteChar) ∨
  (l.head? = some squoteChar ∧ l.getLast? = some squoteChar)

instance (l : List Char) : Decidable (quoteWrapped l) := by
  unfold quoteWrapped
  infer_instance

theorem normalize_output_props (x : List Char) :
    (∀ c ∈ normalizeCommitMessage x, jsWs c = true → c = ' ') ∧
    noWsRun (normalizeCommitMessage x) ∧
    (∀ c, (normalizeCommitMessage x).head? = some c → jsWs c = false) ∧
    (∀ c, (normalizeCommitMessage x).getLast? = some c → jsWs c = false) := by
  rw [normalizeCommitMessage]
  refine ⟨?_, ?_, jsTrim_head_not_ws _, jsTrim_getLast_not_ws _⟩
  · intro c hc hw
    exact jsCollapse_ws_eq_space _ c ((jsTrim_within _).subset hc) hw
  · rw [noWsRun]
    exact List.Chain'.infix (jsCollapse_noWsRun _) (jsTrim_within _)

theorem normalize_second_pass (y : List Char)
    (hsp : ∀ c ∈ y, jsWs c = true → c = ' ')
    (hrun : noWsRun y)
    (hhead : ∀ c, y.head? = some c → jsWs c = false)
    (hlast : ∀ c, y.getLast? = some c → jsWs c = false)
    (hq : ¬ quoteWrapped y) :
    normalizeCommitMessage y = y := by
  have htrim : jsTrim y = y := jsTrim_fixed y hhead hlast
  have hnl : '\n' ∉ y := by
    intro hmem
    have h1 := hsp '\n' hmem (by decide)
    exact absurd h1 (by decide)
  rw [quoteWrapped] at hq
  push_neg at hq
  have h1 : stripWrap backquoteChar y = y := by
    rw [stripWrap, if_neg (fun hc => (hq.1 hc.1 hc.2).elim)]
  have h2 : stripWrap dquoteChar y = y := by
    rw [stripWrap, if_neg (fun hc => (hq.2.1 hc.1 hc.2).elim)]
  have h3 : stripWrap squoteChar y = y := by
    rw [stripWrap, if_neg (fun hc => (hq.2.2 hc.1 hc.2).elim)]
  rw [normalizeCommitMessage, htrim, fenceReplace_fixed y hnl, htrim, h1, h2, h3,
    jsCollapse_fixed y hsp hrun, htrim]

/-- Claim C5 (amended): normalization is idempotent on every input whose first
pass does not produce a string that again starts and ends with a backtick,
double quote, or single quote; and the three concrete examples of the claim
each normalize to exactly the expected text. -/
theorem normalizeCommitMessage_idempotent_unless_wrapped :
    (∀ x : List Char, ¬ quoteWrapped (normalizeCommitMessage x) →
      normalizeCommitMessage (normalizeCommitMessage x) = normalizeCommitMessage x) ∧
    normalizeCommitMessage "\"fix bug\"".data = "fix bug".data ∧
    normalizeCommitMessage "`fix bug`".data = "fix bug".data ∧
    normalizeCommitMessage "fix   bug\n".data = "fix bug".data := by
  refine ⟨?_, by decide, by decide, by decide⟩
  intro x hq
  obtain ⟨hsp, hrun, hhead, hlast⟩ := normalize_output_props x
  exact normalize_second_pass _ hsp hrun hhead hlast hq

/-- Claim C5 witness: the amended idempotence applied at a concrete input. -/
theorem normalizeCommitMessage_idempotent_unless_wrapped_witness :
    normalizeCommitMessage (normalizeCommitMessage "  fix   the bug ".data) =
      normalizeCommitMessage "  fix   the bug ".data :=
  normalizeCommitMessage_idempotent_unless_wrapped.1 "  fix   the bug ".data (by decide)

/-- Claim C5 counterexample: normalization is not idempotent as stated for all
inputs; a doubly double-quoted string loses one quote layer per pass. -/
theorem normalizeCommitMessage_not_idempotent :
    ¬ (normalizeCommitMessage (normalizeCommitMessage "\"\"hello\"\"".data) =
        normalizeCommitMessage "\"\"hello\"\"".data) := by decide

/-- Claim C10: the truncation cap is clamped to at least 500 (a configured
value below 500 is raised to 500; an absent or non-finite value defaults to
200000); a diff longer than the cap becomes its first cap characters followed
by the 21-character truncation marker, and a diff within the cap is returned
unchanged. -/
theorem truncateDiffForAI_cap_spec (diff : List Char) (cfg : Option Int) :
    (∀ v : Int, v < 500 → effectiveDiffCap (some v) = 500) ∧
    effectiveDiffCap none = 200000 ∧
    500 ≤ effectiveDiffCap cfg ∧
    ((diff.length : Int) > effectiveDiffCap cfg →
      truncateDiffForAI diff cfg = diff.take (effectiveDiffCap cfg).toNat ++ truncMarker ∧
      (truncateDiffForAI diff cfg).length = (effectiveDiffCap cfg).toNat + truncMarker.length ∧
      truncMarker.length = 21) ∧
    ((diff.length : Int) ≤ effectiveDiffCap cfg → truncateDiffForAI diff cfg = diff) := by
  have hcap : (500 : Int) ≤ effectiveDiffCap cfg := le_max_left 500 (cfg.getD 200000)
  refine ⟨?_, by decide, hcap, ?_, ?_⟩
  · intro v hv
    simp only [effectiveDiffCap, Option.getD_some]
    omega
  · intro hgt
    rw [truncateDiffForAI, if_pos hgt]
    refine ⟨rfl, ?_, by decide⟩
    rw [List.length_append, List.length_take]
    have hlen : (effectiveDiffCap cfg).toNat ≤ diff.length := by omega
    rw [min_eq_left hlen]
  · intro hle
    rw [truncateDiffForAI, if_neg (by omega)]

/-- Claim C10 witness: a 501-character diff with a configured cap of 100 is
cut at the clamped cap of 500 and carries the marker. -/
theorem truncateDiffForAI_cap_spec_witness :
    (truncateDiffForAI (List.replicate 501 'a') (some 100)).length = 500 + 21 := by
  have h := (truncateDiffForAI_cap_spec (List.replicate 501 'a') (some 100)).2.2.2.1 (by
    simp only [List.length_replicate, effectiveDiffCap, Option.getD_some]
    norm_num)
  rw [h.2.1]
  decide

/-! ## Embedding of the GitManager (src/git/gitManager.ts, src/unnamed/part_001)

The VCS gateway, the AI backends and the path library are external
collaborators; a `GitEnv` record gives the result of each external call.
Every `execGit` invocation is appended to a trace of argument lists, every
`onStatusChangeEmitter.fire` to a status trace, and every AI provider call
increments a counter, so side effects are observable in the model. -/

/-- The status values fired through `onStatusChangeEmitter`. -/
inductive Status
  | syncing
  | enabled
  | error
  | disabled
deriving DecidableEq, Repr

/-- `gitdocAI.autoPush` configuration values. -/
inductive AutoPushMode
  | onCommit
  | afterDelay
  | off
deriving DecidableEq, Repr

/-- `gitdocAI.autoPull` configuration values. -/
inductive AutoPullMode
  | onPush
  | afterDelay
  | off
deriving DecidableEq, Repr

/-- `gitdocAI.pushMode` configuration values. -/
inductive PushMode
  | forcePush
  | forcePushWithLease
  | push
deriving DecidableEq, Repr

/-- The configuration fields read by the commit/push/pull cycle.  The glob
filter is modelled as the predicate `minimatch(·, config.filePattern)`. -/
structure Config where
  aiEnabled : Bool
  noVerify : Bool
  autoPush : AutoPushMode
  autoPull : AutoPullMode
  pushMode : PushMode
  filePatternMatch : String → Bool

/-- The mutable fields of `GitManager` used by commit/push/pull. -/
structure GMState where
  isCommitting : Bool
  isPushing : Bool
  isPulling : Bool
  preferredWorkingDirectory : Option String
deriving DecidableEq, Repr

/-- Observable side effects of one run: the `execGit` argument lists in order,
the fired status events in order, and the number of AI provider calls. -/
structure Effects where
  git : List (List String)
  statuses : List Status
  aiCalls : Nat
deriving DecidableEq, Repr

/-- The empty effect trace. -/
def Effects.empty : Effects := ⟨[], [], 0⟩

/-- Record one `execGit` invocation. -/
def Effects.gitCmd (e : Effects) (args : List String) : Effects :=
  { e with git := e.git ++ [args] }

/-- Record one status event. -/
def Effects.fire (e : Effects) (st : Status) : Effects :=
  { e with statuses := e.statuses ++ [st] }

/-- Record one AI provider invocation. -/
def Effects.aiCall (e : Effects) : Effects :=
  { e with aiCalls := e.aiCalls + 1 }

/-- Results of the external calls made during one cycle.  `Except` fields
model calls that can throw; `stageError p` is the error thrown by
`git add -- p`, or `none` on success; `providerResult n` is the outcome of
the n-th AI provider call of the run (timeout included); `timestampMessage`
is what `getTimestampMessage()` (luxon) returns. -/
structure GitEnv where
  resolveCwd : Option String
  hasChanges : Except String Bool
  changedFiles : Except String (List String)
  normalizeGitPath : String → Option String
  stageError : String → Option String
  stagedDiff : Except String String
  currentBranch : Except String String
  hasRemote : Bool
  hasUpstream : Bool
  commitError : Option String
  pushError : Option String
  pullError : Option String
  hasProvider : Bool
  providerAvailable : Bool
  providerResult : Nat → Except String String
  timestampMessage : String

/-- The `git rev-parse --abbrev-ref HEAD` argument list (`getCurrentBranch`). -/
def branchCmd : List String := ["rev-parse", "--abbrev-ref", "HEAD"]

/-- The `git rev-parse --abbrev-ref @\x7bupstream\x7d` argument list (`hasUpstream`). -/
def upstreamCmd : List String := ["rev-parse", "--abbrev-ref", "@\x7bupstream\x7d"]

/-- `GitManager.resolveWorkingDirectory`: an override wins and is cached as
preferred; else the cached preferred directory; else the target directory of
the workspace, cached when found. -/
def resolveWorkingDirectory (env : GitEnv) (s : GMState) (cwdOverride : Option String) :
    Option String × GMState :=
  match cwdOverride with
  | some c => (some c, { s with preferredWorkingDirectory := some c })
  | none =>
    match s.preferredWorkingDirectory with
    | some p => (some p, s)
    | none =>
      match env.resolveCwd with
      | some c => (some c, { s with preferredWorkingDirectory := some c })
      | none => (none, s)

/-- A character the JavaScript regular-expression `.` matches (no line
terminators). -/
def jsDotChar (c : Char) : Bool :=
  ¬(c = '\n' ∨ c = '\r' ∨ c = Char.ofNat 0x2028 ∨ c = Char.ofNat 0x2029)

/-- `lit` occurs after zero or more `.`-matched characters from the start. -/
def dotStarThen (lit : List Char) : List Char → Bool
  | [] => lit.isEmpty
  | c :: t => lit.isPrefixOf (c :: t) || (jsDotChar c && dotStarThen lit t)

/-- Some position matches `lit1`, then `.*`, then `lit2`. -/
def scanFor (lit1 lit2 : List Char) : List Char → Bool
  | [] => lit1.isEmpty && dotStarThen lit2 []
  | c :: t =>
    (lit1.isPrefixOf (c :: t) && dotStarThen lit2 (List.drop lit1.length (c :: t))) ||
      scanFor lit1 lit2 t

/-- Substring containment, JavaScript `String.prototype.includes`. -/
def containsSub (needle : List Char) : List Char → Bool
  | [] => needle.isEmpty
  | c :: t => needle.isPrefixOf (c :: t) || containsSub needle t

/-- `GitManager.isSubmodulePathspecError`: the case-insensitive regular
expression `pathspec .* is in submodule` matches the message. -/
def isSubmodulePathspecError (message : String) : Bool :=
  scanFor "pathspec ".data " is in submodule".data (message.data.map Char.toLower)

/-- `GitManager.isIgnoredFileError`. -/
def isIgnoredFileError (message : String) : Bool :=
  containsSub "ignored by one of your .gitignore files".data message.data

/-- `GitManager.isPathspecNoMatchError`. -/
def isPathspecNoMatchError (message : String) : Bool :=
  containsSub "did not match any files".data message.data

/-- `normalizeCommitMessage` lifted to `String`. -/
def normalizeCommitMessageStr (s : String) : String :=
  String.mk (normalizeCommitMessage s.data)

/-- The staging loop of `GitManager.commit`: stage each matching file, skip
paths outside the repository, absorb the three skippable error classes, and
abort on any other staging error (first component `some msg`). -/
def stageMatchingFiles (env : GitEnv) :
    List String → Bool → Effects → Option String × Bool × Effects
  | [], stagedAny, eff => (none, stagedAny, eff)
  | file :: rest, stagedAny, eff =>
    match env.normalizeGitPath file with
    | none => stageMatchingFiles env rest stagedAny eff
    | some p =>
      let eff := eff.gitCmd ["add", "--", p]
      match env.stageError p with
      | none => stageMatchingFiles env rest true eff
      | some msg =>
        if isSubmodulePathspecError msg then stageMatchingFiles env rest stagedAny eff
        else if isIgnoredFileError msg then stageMatchingFiles env rest stagedAny eff
        else if isPathspecNoMatchError msg then stageMatchingFiles env rest stagedAny eff
        else (some msg, stagedAny, eff)

/-- `AIManager.generateCommitMessage` as seen from the commit cycle: fail when
no provider is configured or its credentials are missing, else make exactly
one provider call (whose outcome, timeout included, the environment gives). -/
def aiGenerateCommitMessage (env : GitEnv) (eff : Effects) :
    Except String String × Effects :=
  if env.hasProvider = false then
    (Except.error "No AI provider configured.", eff)
  else if env.providerAvailable = false then
    (Except.error "credentials not found", eff)
  else (env.providerResult eff.aiCalls, eff.aiCall)

/-- The push-mode switch of `GitManager.push`. -/
def pushModeArgs : PushMode → List String
  | .forcePush => ["push", "--force"]
  | .forcePushWithLease => ["push", "--force-with-lease"]
  | .push => ["push"]

/-- `GitManager.pull`: drop when the pulling flag is set; no-op without a
remote or an upstream; otherwise `git pull --rebase` guarded by the flag,
with the flag reset in `finally`. -/
def pull (env : GitEnv) (cwdOverride : Option String) (s : GMState) (eff : Effects) :
    Bool × GMState × Effects :=
  if s.isPulling then (false, s, eff)
  else
    match resolveWorkingDirectory env s cwdOverride with
    | (none, s1) => (false, s1, eff)
    | (some _, s1) =>
      let eff := eff.gitCmd ["remote"]
      if env.hasRemote = false then (false, { s1 with isPulling := false }, eff)
      else
        let eff := eff.gitCmd upstreamCmd
        if env.hasUpstream = false then (false, { s1 with isPulling := false }, eff)
        else
          let s2 := { s1 with isPulling := true }
          let eff := eff.fire .syncing
          let eff := eff.gitCmd ["pull", "--rebase"]
          match env.pullError with
          | none => (true, { s2 with isPulling := false }, eff.fire .enabled)
          | some _ => (false, { s2 with isPulling := false }, eff.fire .error)

/-- `GitManager.push`: drop when the pushing flag is set; no-op without a
remote; set upstream on first push, else use the configured mode; optionally
chain a pull; the flag is reset in `finally`. -/
def push (cfg : Config) (env : GitEnv) (cwdOverride : Option String) (s : GMState)
    (eff : Effects) : Bool × GMState × Effects :=
  if s.isPushing then (false, s, eff)
  else
    match resolveWorkingDirectory env s cwdOverride with
    | (none, s1) => (false, s1, eff)
    | (some cwd, s1) =>
      let eff := eff.gitCmd ["remote"]
      if env.hasRemote = false then (false, s1, eff)
      else
        let s2 := { s1 with isPushing := true }
        let eff := (eff.fire .syncing).gitCmd branchCmd
        match env.currentBranch with
        | .error _ => (false, { s2 with isPushing := false }, eff.fire .error)
        | .ok branch =>
          let eff := eff.gitCmd upstreamCmd
          let pushArgs :=
            if env.hasUpstream = false then ["push", "-u", "origin", branch]
            else pushModeArgs cfg.pushMode
          let eff := eff.gitCmd pushArgs
          match env.pushError with
          | some _ => (false, { s2 with isPushing := false }, eff.fire .error)
          | none =>
            if cfg.autoPull = .onPush then
              let r := pull env (some cwd) s2 eff
              (true, { r.2.1 with isPushing := false }, r.2.2.fire .enabled)
            else (true, { s2 with isPushing := false }, eff.fire .enabled)

/-- The tail of `GitManager.commit` after the message is chosen: normalize,
fall back to the timestamp when normalization empties the message, run
`git commit`, optionally chain a push, and reset the flag in `finally`. -/
def finishCommit (cfg : Config) (env : GitEnv) (cwd : String) (s2 : GMState)
    (eff : Effects) (message : String) : Bool × GMState × Effects :=
  let m1 := normalizeCommitMessageStr message
  let m2 := if m1 = "" then env.timestampMessage else m1
  let commitArgs := ["commit", "-m", m2] ++ (if cfg.noVerify then ["--no-verify"] else [])
  let eff := eff.gitCmd commitArgs
  match env.commitError with
  | some _ => (false, { s2 with isCommitting := false }, eff.fire .error)
  | none =>
    if cfg.autoPush = .onCommit then
      let r := push cfg env (some cwd) s2 eff
      (true, { r.2.1 with isCommitting := false }, r.2.2.fire .enabled)
    else (true, { s2 with isCommitting := false }, eff.fire .enabled)

/-- `GitManager.commit`: drop when the committing flag is set; skip without
changes or matching files; stage matching files (skippable errors absorbed);
for an AI-enabled cycle require a non-empty staged diff, ask the provider
once and fall back to the timestamp message on failure; commit; optionally
chain a push; every thrown error fires the `error` status and yields false;
the flag is reset in `finally`. -/
def commit (cfg : Config) (env : GitEnv) (cwdOverride : Option String) (s : GMState)
    (eff : Effects) : Bool × GMState × Effects :=
  if s.isCommitting then (false, s, eff)
  else
    match resolveWorkingDirectory env s cwdOverride with
    | (none, s1) => (false, s1, eff)
    | (some cwd, s1) =>
      let s2 := { s1 with isCommitting := true }
      let eff := (eff.fire .syncing).gitCmd ["status", "--porcelain"]
      match env.hasChanges with
      | .error _ => (false, { s2 with isCommitting := false }, eff.fire .error)
      | .ok ch =>
        if ch = false then (false, { s2 with isCommitting := false }, eff.fire .enabled)
        else
          let eff := eff.gitCmd ["status", "--porcelain", "-z"]
          match env.changedFiles with
          | .error _ => (false, { s2 with isCommitting := false }, eff.fire .error)
          | .ok changedFiles =>
            let matchingFiles := changedFiles.filter cfg.filePatternMatch
            if matchingFiles.isEmpty then
              (false, { s2 with isCommitting := false }, eff.fire .enabled)
            else
              match stageMatchingFiles env matchingFiles false eff with
              | (some _, _, eff1) =>
                (false, { s2 with isCommitting := false }, eff1.fire .error)
              | (none, stagedAny, eff1) =>
                if stagedAny = false then
                  (false, { s2 with isCommitting := false }, eff1.fire .enabled)
                else
                  if cfg.aiEnabled then
                    let eff2 := eff1.gitCmd ["diff", "--cached"]
                    match env.stagedDiff with
                    | .error _ =>
                      (false, { s2 with isCommitting := false }, eff2.fire .error)
                    | .ok diff =>
                      if diff = "" then
                        (false, { s2 with isCommitting := false }, eff2.fire .error)
                      else
                        let r := aiGenerateCommitMessage env eff2
                        let message :=
                          match r.1 with
                          | .ok m => m
                          | .error _ => env.timestampMessage
                        finishCommit cfg env cwd s2 r.2 message
                  else
                    finishCommit cfg env cwd s2 eff1 env.timestampMessage

theorem resolveWorkingDirectory_flags (env : GitEnv) (s : GMState) (o : Option String) :
    (resolveWorkingDirectory env s o).2.isCommitting = s.isCommitting ∧
    (resolveWorkingDirectory env s o).2.isPushing = s.isPushing ∧
    (resolveWorkingDirectory env s o).2.isPulling = s.isPulling := by
  rcases o with _ | c
  · rcases hp : s.preferredWorkingDirectory with _ | p
    · rcases hc : env.resolveCwd with _ | c <;> simp [resolveWorkingDirectory, hp, hc]
    · simp [resolveWorkingDirectory, hp]
  · simp [resolveWorkingDirectory]

theorem finishCommit_isCommitting (cfg : Config) (env : GitEnv) (cwd : String)
    (s2 : GMState) (eff : Effects) (m : String) :
    (finishCommit cfg env cwd s2 eff m).2.1.isCommitting = false := by
  rw [finishCommit]
  repeat' split
  all_goals simp

theorem commit_resets_flag (cfg : Config) (env : GitEnv) (o : Option String)
    (s : GMState) (eff : Effects) (h : s.isCommitting = false) :
    (commit cfg env o s eff).2.1.isCommitting = false := by
  rw [commit, if_neg (by simp [h])]
  rcases hreso : resolveWorkingDirectory env s o with ⟨ocwd, s1⟩
  have hs1 : s1.isCommitting = false := by
    have hf := (resolveWorkingDirectory_flags env s o).1
    rw [hreso] at hf
    simpa [h] using hf
  cases ocwd with
  | none => simpa using hs1
  | some cwd =>
    simp only []
    repeat' split
    all_goals simp [finishCommit_isCommitting]

theorem push_resets_flag (cfg : Config) (env : GitEnv) (o : Option String)
    (s : GMState) (eff : Effects) (h : s.isPushing = false) :
    (push cfg env o s eff).2.1.isPushing = false := by
  rw [push, if_neg (by simp [h])]
  rcases hreso : resolveWorkingDirectory env s o with ⟨ocwd, s1⟩
  have hs1 : s1.isPushing = false := by
    have hf := (resolveWorkingDirectory_flags env s o).2.1
    rw [hreso] at hf
    simpa [h] using hf
  cases ocwd with
  | none => simpa using hs1
  | some cwd =>
    simp only []
    repeat' split
    all_goals simp [hs1]

theorem pull_resets_flag (env : GitEnv) (o : Option String)
    (s : GMState) (eff : Effects) (h : s.isPulling = false) :
    (pull env o s eff).2.1.isPulling = false := by
  rw [pull, if_neg (by simp [h])]
  rcases hreso : resolveWorkingDirectory env s o with ⟨ocwd, s1⟩
  have hs1 : s1.isPulling = false := by
    have hf := (resolveWorkingDirectory_flags env s o).2.2
    rw [hreso] at hf
    simpa [h] using hf
  cases ocwd with
  | none => simpa using hs1
  | some cwd =>
    simp only []
    repeat' split
    all_goals simp [hs1]

/-- Claim C2: each of commit, push and pull returns false at once, with no
new VCS commands, status events or AI calls and no state change, when its
in-flight flag is already set; and starting from a clear flag, the flag is
clear again after the operation on every path. -/
theorem inflight_flag_mutual_exclusion (cfg : Config) (env : GitEnv) (o : Option String)
    (s : GMState) (eff : Effects) :
    (s.isCommitting = true → commit cfg env o s eff = (false, s, eff)) ∧
    (s.isPushing = true → push cfg env o s eff = (false, s, eff)) ∧
    (s.isPulling = true → pull env o s eff = (false, s, eff)) ∧
    (s.isCommitting = false → (commit cfg env o s eff).2.1.isCommitting = false) ∧
    (s.isPushing = false → (push cfg env o s eff).2.1.isPushing = false) ∧
    (s.isPulling = false → (pull env o s eff).2.1.isPulling = false) := by
  refine ⟨?_, ?_, ?_, commit_resets_flag cfg env o s eff,
    push_resets_flag cfg env o s eff, pull_resets_flag env o s eff⟩
  · intro h; rw [commit, if_pos (by simp [h])]
  · intro h; rw [push, if_pos (by simp [h])]
  · intro h; rw [pull, if_pos (by simp [h])]

/-- Claim C2 witness: concrete evaluation of the mutual-exclusion theorem. -/
theorem inflight_flag_mutual_exclusion_witness :
    push { aiEnabled := true, noVerify := false, autoPush := .onCommit, autoPull := .off,
           pushMode := .push, filePatternMatch := fun _ => true }
      { resolveCwd := some "/repo", hasChanges := .ok true, changedFiles := .ok [],
        normalizeGitPath := some, stageError := fun _ => none, stagedDiff := .ok "d",
        currentBranch := .ok "main", hasRemote := true, hasUpstream := true,
        commitError := none, pushError := none, pullError := none, hasProvider := true,
        providerAvailable := true, providerResult := fun _ => .ok "m",
        timestampMessage := "ts" }
      (some "/repo") ⟨false, true, false, none⟩ Effects.empty = (false, ⟨false, true, false, none⟩, Effects.empty) :=
  (inflight_flag_mutual_exclusion _ _ _ _ _).2.1 rfl

theorem pull_git_filter (env : GitEnv) (o : Option String) (s : GMState) (eff : Effects)
    (p : List String → Bool) (h1 : p ["remote"] = false) (h2 : p upstreamCmd = false)
    (h3 : p ["pull", "--rebase"] = false) :
    ((pull env o s eff).2.2).git.filter p = eff.git.filter p := by
  rw [pull]
  repeat' split
  all_goals simp [Effects.gitCmd, Effects.fire, List.filter_append, h1, h2, h3]

/-- Claim C6: with a remote configured, a push on a branch with no upstream
issues exactly one push command, `push -u origin <branch>`; with an existing
upstream it issues exactly the configured mode's flags, which never contain
upstream-setting arguments. -/
theorem push_upstream_bootstrap (cfg : Config) (env : GitEnv) (o : Option String)
    (s : GMState) (b : String) (hflag : s.isPushing = false)
    (hres : (resolveWorkingDirectory env s o).1.isSome = true)
    (hrem : env.hasRemote = true) (hb : env.currentBranch = .ok b) :
    (env.hasUpstream = false →
      ((push cfg env o s Effects.empty).2.2).git.filter (fun a => a.head? == some "push") =
        [["push", "-u", "origin", b]]) ∧
    (env.hasUpstream = true →
      ((push cfg env o s Effects.empty).2.2).git.filter (fun a => a.head? == some "push") =
        [pushModeArgs cfg.pushMode]) ∧
    (∀ m : PushMode, "-u" ∉ pushModeArgs m ∧ "origin" ∉ pushModeArgs m) := by
  have hmode : ∀ m : PushMode, ("-u" ∉ pushModeArgs m ∧ "origin" ∉ pushModeArgs m) := by
    intro m; cases m <;> simp [pushModeArgs]
  have hmodehead : ∀ m : PushMode, (pushModeArgs m).head? = some "push" := by
    intro m; cases m <;> simp [pushModeArgs]
  rcases hreso : resolveWorkingDirectory env s o with ⟨ocwd, s1⟩
  cases ocwd with
  | none => rw [hreso] at hres; simp at hres
  | some cwd =>
    have hpush : ∀ hup : Bool, env.hasUpstream = hup →
        ((push cfg env o s Effects.empty).2.2).git.filter (fun a => a.head? == some "push") =
          [if hup = false then ["push", "-u", "origin", b] else pushModeArgs cfg.pushMode] := by
      intro hup hhup
      rw [push, if_neg (by simp [hflag]), hreso]
      simp only [hrem, Bool.true_eq_false, if_false, hb, hhup]
      rcases env.pushError with _ | e
      · by_cases hap : cfg.autoPull = .onPush
        · simp only [hap, if_true]
          rw [Effects.fire]
          simp only []
          rw [pull_git_filter env (some cwd) _ _ _ (by rfl) (by rfl) (by rfl)]
          cases hup <;>
            simp [Effects.gitCmd, Effects.fire, Effects.empty, List.filter_append,
              branchCmd, upstreamCmd, hmodehead]
        · simp only [hap, if_false]
          cases hup <;>
            simp [Effects.gitCmd, Effects.fire, Effects.empty, List.filter_append,
              branchCmd, upstreamCmd, hmodehead]
      · cases hup <;>
          simp [Effects.gitCmd, Effects.fire, Effects.empty, List.filter_append,
            branchCmd, upstreamCmd, hmodehead]
    refine ⟨fun h => ?_, fun h => ?_, hmode⟩
    · simpa using hpush false h
    · simpa using hpush true h

/-- A sample configuration for concrete witness runs. -/
def sampleCfg : Config :=
  { aiEnabled := true, noVerify := false, autoPush := .off, autoPull := .off,
    pushMode := .push, filePatternMatch := fun _ => true }

/-- A sample healthy environment for concrete witness runs. -/
def sampleEnv : GitEnv :=
  { resolveCwd := some "/repo", hasChanges := .ok true, changedFiles := .ok ["a.txt"],
    normalizeGitPath := some, stageError := fun _ => none, stagedDiff := .ok "diff text",
    currentBranch := .ok "main", hasRemote := true, hasUpstream := true,
    commitError := none, pushError := none, pullError := none, hasProvider := true,
    providerAvailable := true, providerResult := fun _ => .ok "msg",
    timestampMessage := "2025-01-01 12.00.00" }

/-- The initial manager state: no operation in flight, no cached directory. -/
def sampleState : GMState := ⟨false, false, false, none⟩

/-- Claim C6 witness: a concrete push with no upstream issues the bootstrap
command for the current branch. -/
theorem push_upstream_bootstrap_witness :
    ((push sampleCfg { sampleEnv with hasUpstream := false } (some "/repo") sampleState
        Effects.empty).2.2).git.filter (fun a => a.head? == some "push") =
      [["push", "-u", "origin", "main"]] :=
  (push_upstream_bootstrap sampleCfg { sampleEnv with hasUpstream := false } (some "/repo")
    sampleState "main" rfl rfl rfl rfl).1 rfl

theorem stageMatchingFiles_effects (env : GitEnv) (files : List String) (st : Bool)
    (eff : Effects) :
    ((stageMatchingFiles env files st eff).2.2).statuses = eff.statuses ∧
    ((stageMatchingFiles env files st eff).2.2).aiCalls = eff.aiCalls ∧
    (∀ p : List String → Bool, (∀ x, p ["add", "--", x] = false) →
      ((stageMatchingFiles env files st eff).2.2).git.filter p = eff.git.filter p) := by
  induction files generalizing st eff with
  | nil => simp [stageMatchingFiles]
  | cons f rest ih =>
    rw [stageMatchingFiles]
    rcases env.normalizeGitPath f with _ | pth
    · exact ih st eff
    · simp only []
      rcases env.stageError pth with _ | msg
    
      · refine ⟨(ih _ _).1, (ih _ _).2.1, ?_⟩
        intro p hp
        rw [(ih _ _).2.2 p hp]
        simp [Effects.gitCmd, List.filter_append, hp]
      · by_cases h1 : isSubmodulePathspecError msg
        · simp only [h1, if_true]
          refine ⟨(ih _ _).1, (ih _ _).2.1, ?_⟩
          intro p hp
          rw [(ih _ _).2.2 p hp]
          simp [Effects.gitCmd, List.filter_append, hp]
        · simp only [h1, Bool.false_eq_true, if_false]
          by_cases h2 : isIgnoredFileError msg
          · simp only [h2, if_true]
            refine ⟨(ih _ _).1, (ih _ _).2.1, ?_⟩
            intro p hp
            rw [(ih _ _).2.2 p hp]
            simp [Effects.gitCmd, List.filter_append, hp]
          · simp only [h2, Bool.false_eq_true, if_false]
            by_cases h3 : isPathspecNoMatchError msg
            · simp only [h3, if_true]
              refine ⟨(ih _ _).1, (ih _ _).2.1, ?_⟩
              intro p hp
              rw [(ih _ _).2.2 p hp]
              simp [Effects.gitCmd, List.filter_append, hp]
            · simp only [h3, Bool.false_eq_true, if_false]
              refine ⟨rfl, rfl, ?_⟩
              intro p hp
              simp [Effects.gitCmd, List.filter_append, hp]

theorem stageMatchingFiles_invariant (env : GitEnv) (files : List String) :
    ∀ (st : Bool) (eff eff2 : Effects),
      (stageMatchingFiles env files st eff).1 = (stageMatchingFiles env files st eff2).1 ∧
      (stageMatchingFiles env files st eff).2.1 = (stageMatchingFiles env files st eff2).2.1 := by
  induction files with
  | nil => intro st eff eff2; simp [stageMatchingFiles]
  | cons f rest ih =>
    intro st eff eff2
    rw [stageMatchingFiles, stageMatchingFiles]
    rcases env.normalizeGitPath f with _ | pth
    · exact ih st eff eff2
    · simp only []
      rcases env.stageError pth with _ | msg
      · exact ih true _ _
      · by_cases h1 : isSubmodulePathspecError msg
        · simp only [h1, if_true]; exact ih st _ _
        · simp only [h1, Bool.false_eq_true, if_false]
          by_cases h2 : isIgnoredFileError msg
          · simp only [h2, if_true]; exact ih st _ _
          · simp only [h2, Bool.false_eq_true, if_false]
            by_cases h3 : isPathspecNoMatchError msg
            · simp only [h3, if_true]; exact ih st _ _
            · simp [h3]

/-- Claim C7: a per-path staging failure of one of the three skippable classes
(submodule-internal path, gitignored file, pathspec with no match) is absorbed
and staging continues with the remaining paths; any other per-path failure
aborts the cycle with the error status and no commit command; and a cycle
that stages zero files is skipped with the enabled status, not an error. -/
theorem staging_skippable_classification (cfg : Config) (env : GitEnv) :
    (∀ file rest st eff pth msg, env.normalizeGitPath file = some pth →
      env.stageError pth = some msg →
      (isSubmodulePathspecError msg = true ∨ isIgnoredFileError msg = true ∨
        isPathspecNoMatchError msg = true) →
      stageMatchingFiles env (file :: rest) st eff =
        stageMatchingFiles env rest st (eff.gitCmd ["add", "--", pth])) ∧
    (∀ file rest st eff pth msg, env.normalizeGitPath file = some pth →
      env.stageError pth = some msg →
      isSubmodulePathspecError msg = false → isIgnoredFileError msg = false →
      isPathspecNoMatchError msg = false →
      stageMatchingFiles env (file :: rest) st eff =
        (some msg, st, eff.gitCmd ["add", "--", pth])) ∧
    (∀ o s fs msg, s.isCommitting = false →
      (resolveWorkingDirectory env s o).1.isSome = true →
      env.hasChanges = .ok true → env.changedFiles = .ok fs →
      (fs.filter cfg.filePatternMatch).isEmpty = false →
      (stageMatchingFiles env (fs.filter cfg.filePatternMatch) false Effects.empty).1 =
        some msg →
      (commit cfg env o s Effects.empty).1 = false ∧
      ((commit cfg env o s Effects.empty).2.2).statuses = [.syncing, .error] ∧
      ((commit cfg env o s Effects.empty).2.2).git.filter
        (fun a => a.head? == some "commit") = []) ∧
    (∀ o s fs, s.isCommitting = false →
      (resolveWorkingDirectory env s o).1.isSome = true →
      env.hasChanges = .ok true → env.changedFiles = .ok fs →
      (fs.filter cfg.filePatternMatch).isEmpty = false →
      (stageMatchingFiles env (fs.filter cfg.filePatternMatch) false Effects.empty).1 =
        none →
      (stageMatchingFiles env (fs.filter cfg.filePatternMatch) false Effects.empty).2.1 =
        false →
      (commit cfg env o s Effects.empty).1 = false ∧
      ((commit cfg env o s Effects.empty).2.2).statuses = [.syncing, .enabled] ∧
      ((commit cfg env o s Effects.empty).2.2).git.filter
        (fun a => a.head? == some "commit") = []) := by
  refine ⟨?_, ?_, ?_, ?_⟩
  · intro file rest st eff pth msg hn he hsk
    rw [stageMatchingFiles, hn]
    simp only []
    rw [he]
    rcases hsk with h | h | h <;> simp [h]
  · intro file rest st eff pth msg hn he h1 h2 h3
    rw [stageMatchingFiles, hn]
    simp only []
    rw [he]
    simp [h1, h2, h3]
  · intro o s fs msg hflag hres hch hcf hne hst
    rcases hreso : resolveWorkingDirectory env s o with ⟨ocwd, s1⟩
    cases ocwd with
    | none => rw [hreso] at hres; simp at hres
    | some cwd =>
      rw [commit, if_neg (by simp [hflag]), hreso]
      simp only [hch, hcf, hne, Bool.false_eq_true, Bool.true_eq_false, if_false]
      rcases hsteq : stageMatchingFiles env (fs.filter cfg.filePatternMatch) false
          (((Effects.empty.fire .syncing).gitCmd ["status", "--porcelain"]).gitCmd
            ["status", "--porcelain", "-z"]) with ⟨err, stAny, eff1⟩
      have herr : err = some msg := by
        have hinv := (stageMatchingFiles_invariant env (fs.filter cfg.filePatternMatch)
          false Effects.empty (((Effects.empty.fire .syncing).gitCmd
            ["status", "--porcelain"]).gitCmd ["status", "--porcelain", "-z"])).1
        rw [hst, hsteq] at hinv
        exact hinv.symm
      subst herr
      simp only []
      have heff := stageMatchingFiles_effects env (fs.filter cfg.filePatternMatch) false
        (((Effects.empty.fire .syncing).gitCmd ["status", "--porcelain"]).gitCmd
          ["status", "--porcelain", "-z"])
      rw [hsteq] at heff
      refine ⟨by simp, ?_, ?_⟩
      · show (eff1.fire Status.error).statuses = [Status.syncing, Status.error]
        rw [show (eff1.fire Status.error).statuses = eff1.statuses ++ [Status.error] from rfl,
          heff.1]
        rfl
      · show List.filter (fun a => a.head? == some "commit") (eff1.fire Status.error).git = []
        rw [show (eff1.fire Status.error).git = eff1.git from rfl,
          heff.2.2 _ (fun x => rfl)]
        rfl
  · intro o s fs hflag hres hch hcf hne hst hany
    rcases hreso : resolveWorkingDirectory env s o with ⟨ocwd, s1⟩
    cases ocwd with
    | none => rw [hreso] at hres; simp at hres
    | some cwd =>
      rw [commit, if_neg (by simp [hflag]), hreso]
      simp only [hch, hcf, hne, Bool.false_eq_true, Bool.true_eq_false, if_false]
      rcases hsteq : stageMatchingFiles env (fs.filter cfg.filePatternMatch) false
          (((Effects.empty.fire .syncing).gitCmd ["status", "--porcelain"]).gitCmd
            ["status", "--porcelain", "-z"]) with ⟨err, stAny, eff1⟩
      have hinv := stageMatchingFiles_invariant env (fs.filter cfg.filePatternMatch)
        false Effects.empty (((Effects.empty.fire .syncing).gitCmd
          ["status", "--porcelain"]).gitCmd ["status", "--porcelain", "-z"])
      rw [hst, hsteq] at hinv
      have herr : err = none := hinv.1.symm
      have hsa : stAny = false := by rw [hany] at hinv; exact hinv.2.symm
      subst herr
      subst hsa
      simp only []
      have heff := stageMatchingFiles_effects env (fs.filter cfg.filePatternMatch) false
        (((Effects.empty.fire .syncing).gitCmd ["status", "--porcelain"]).gitCmd
          ["status", "--porcelain", "-z"])
      rw [hsteq] at heff
      refine ⟨by simp, ?_, ?_⟩
      · show (eff1.fire Status.enabled).statuses = [Status.syncing, Status.enabled]
        rw [show (eff1.fire Status.enabled).statuses = eff1.statuses ++ [Status.enabled] from rfl,
          heff.1]
        rfl
      · show List.filter (fun a => a.head? == some "commit") (eff1.fire Status.enabled).git = []
        rw [show (eff1.fire Status.enabled).git = eff1.git from rfl,
          heff.2.2 _ (fun x => rfl)]
        rfl

/-- An environment whose staging of one path fails with a submodule pathspec
error. -/
def submoduleErrEnv : GitEnv :=
  { sampleEnv with stageError := fun p =>
      if p = "sub/x.txt" then some "fatal: Pathspec sub/x.txt is in submodule sub" else none }

/-- Claim C7 witness: a concrete submodule-pathspec staging failure is skipped
and the loop continues with the remaining paths. -/
theorem staging_skippable_classification_witness :
    stageMatchingFiles submoduleErrEnv ["sub/x.txt", "b.txt"] false Effects.empty =
      stageMatchingFiles submoduleErrEnv ["b.txt"] false
        (Effects.empty.gitCmd ["add", "--", "sub/x.txt"]) :=
  (staging_skippable_classification sampleCfg submoduleErrEnv).1 "sub/x.txt" ["b.txt"] false
    Effects.empty "sub/x.txt" "fatal: Pathspec sub/x.txt is in submodule sub" rfl rfl
    (Or.inl (by decide))

/-- Claim C9: in an AI-enabled cycle whose staged diff is the empty string
(after files were staged), the cycle aborts with the error status: no AI
provider call is made, no commit command is issued, commit returns false, and
no timestamp message is substituted. -/
theorem ai_empty_diff_aborts (cfg : Config) (env : GitEnv) (o : Option String)
    (s : GMState) (fs : List String)
    (hai : cfg.aiEnabled = true) (hflag : s.isCommitting = false)
    (hres : (resolveWorkingDirectory env s o).1.isSome = true)
    (hch : env.hasChanges = .ok true) (hcf : env.changedFiles = .ok fs)
    (hne : (fs.filter cfg.filePatternMatch).isEmpty = false)
    (hstok : (stageMatchingFiles env (fs.filter cfg.filePatternMatch) false Effects.empty).1 =
      none)
    (hsa : (stageMatchingFiles env (fs.filter cfg.filePatternMatch) false Effects.empty).2.1 =
      true)
    (hdiff : env.stagedDiff = .ok "") :
    (commit cfg env o s Effects.empty).1 = false ∧
    ((commit cfg env o s Effects.empty).2.2).statuses = [.syncing, .error] ∧
    ((commit cfg env o s Effects.empty).2.2).git.filter
      (fun a => a.head? == some "commit") = [] ∧
    ((commit cfg env o s Effects.empty).2.2).aiCalls = 0 := by
  rcases hreso : resolveWorkingDirectory env s o with ⟨ocwd, s1⟩
  cases ocwd with
  | none => rw [hreso] at hres; simp at hres
  | some cwd =>
    rw [commit, if_neg (by simp [hflag]), hreso]
    simp only [hch, hcf, hne, Bool.false_eq_true, Bool.true_eq_false, if_false]
    rcases hsteq : stageMatchingFiles env (fs.filter cfg.filePatternMatch) false
        (((Effects.empty.fire .syncing).gitCmd ["status", "--porcelain"]).gitCmd
          ["status", "--porcelain", "-z"]) with ⟨err, stAny, eff1⟩
    have hinv := stageMatchingFiles_invariant env (fs.filter cfg.filePatternMatch)
      false Effects.empty (((Effects.empty.fire .syncing).gitCmd
        ["status", "--porcelain"]).gitCmd ["status", "--porcelain", "-z"])
    rw [hstok, hsa, hsteq] at hinv
    have herr : err = none := hinv.1.symm
    have hstany : stAny = true := hinv.2.symm
    subst herr
    subst hstany
    simp only [hai, if_true, hdiff]
    have heff := stageMatchingFiles_effects env (fs.filter cfg.filePatternMatch) false
      (((Effects.empty.fire .syncing).gitCmd ["status", "--porcelain"]).gitCmd
        ["status", "--porcelain", "-z"])
    rw [hsteq] at heff
    refine ⟨by simp, ?_, ?_, ?_⟩
    · show ((eff1.gitCmd ["diff", "--cached"]).fire Status.error).statuses =
        [Status.syncing, Status.error]
      rw [show ((eff1.gitCmd ["diff", "--cached"]).fire Status.error).statuses =
        eff1.statuses ++ [Status.error] from rfl, heff.1]
      rfl
    · show List.filter (fun a => a.head? == some "commit")
        ((eff1.gitCmd ["diff", "--cached"]).fire Status.error).git = []
      rw [show ((eff1.gitCmd ["diff", "--cached"]).fire Status.error).git =
        eff1.git ++ [["diff", "--cached"]] from rfl, List.filter_append,
        heff.2.2 _ (fun x => rfl)]
      rfl
    · show ((eff1.gitCmd ["diff", "--cached"]).fire Status.error).aiCalls = 0
      rw [show ((eff1.gitCmd ["diff", "--cached"]).fire Status.error).aiCalls =
        eff1.aiCalls from rfl, heff.2.1]
      rfl

/-- Claim C9 witness: concrete AI-enabled cycle with an empty staged diff. -/
theorem ai_empty_diff_aborts_witness :
    (commit sampleCfg { sampleEnv with stagedDiff := .ok "" } (some "/repo") sampleState
      Effects.empty).1 = false :=
  (ai_empty_diff_aborts sampleCfg { sampleEnv with stagedDiff := .ok "" } (some "/repo")
    sampleState ["a.txt"] rfl rfl rfl rfl rfl rfl rfl rfl rfl).1

/-- An environment whose AI provider fails on every call. -/
def failingProviderEnv : GitEnv :=
  { sampleEnv with providerResult := fun _ => .error "provider request failed" }

/-- Claim C4 (code behavior at the failing input): with a provider that fails
on every call, the commit cycle makes exactly one provider attempt — there is
no retry loop and no retry or fallback configuration is read — and the commit
is still created with the timestamp message, so disabling fallback or
configuring more attempts is impossible. -/
theorem retry_fallback_not_implemented :
    ((commit sampleCfg failingProviderEnv (some "/repo") sampleState Effects.empty).2.2).aiCalls
        = 1 ∧
    (commit sampleCfg failingProviderEnv (some "/repo") sampleState Effects.empty).1 = true ∧
    ((commit sampleCfg failingProviderEnv (some "/repo") sampleState Effects.empty).2.2).git.filter
        (fun a => a.head? == some "commit") = [["commit", "-m", "2025-01-01 12.00.00"]] := by
  refine ⟨by decide, by decide, by decide⟩

/-! ## Embedding of the save-triggered debounce (GitManager.onFileSaved)

A save event carries the results of the external queries made while handling
it (repository resolution, current branch, diagnostics).  The single debounce
timer is the `commitTimer` field: `some (t, cwd)` is a pending timer that will
invoke `commit(cwd)` at time `t`.  `setTimeout` after `clearTimeout` is
overwriting the field; a timer fires when the clock passes its fire time with
no intervening save. -/

/-- `gitdocAI.commitValidationLevel` values. -/
inductive ValidationLevel
  | error
  | warning
  | none
deriving DecidableEq, Repr

/-- Configuration read by `onFileSaved`. -/
structure SchedCfg where
  autoCommitDelay : Nat
  filePatternMatch : String → Bool
  excludeBranches : List String
  validationLevel : ValidationLevel

/-- One file-save event with the results of its external queries:
`cwd` is `getWorkingDirectory(document.uri)`, `branch` is the current branch
(`none` when `getCurrentBranch` throws), and `hasBlockingProblems` is whether
the saved document carries diagnostics at or above the configured severity. -/
structure SaveEvent where
  time : Nat
  relativePath : String
  cwd : Option String
  branch : Option String
  hasBlockingProblems : Bool

/-- The scheduler-relevant mutable state of `GitManager`. -/
structure SchedState where
  enabled : Bool
  commitTimer : Option (Nat × String)
  preferredWorkingDirectory : Option String
  lastSavedPath : Option String
deriving DecidableEq, Repr

/-- `GitManager.onFileSaved`: ignore when disabled or the repository does not
resolve; cache the directory and saved path; gate on the glob filter, the
branch exclusion list (a thrown branch lookup suppresses too), and the
validation level; then cancel any pending debounce timer and arm a new one
for `commit(cwd)` after `autoCommitDelay`. -/
def onFileSaved (cfg : SchedCfg) (ev : SaveEvent) (st : SchedState) : SchedState :=
  if st.enabled = false then st
  else
    match ev.cwd with
    | Option.none => st
    | some c =>
      let st1 := { st with preferredWorkingDirectory := some c,
                           lastSavedPath := some ev.relativePath }
      if cfg.filePatternMatch ev.relativePath = false then st1
      else
        match ev.branch with
        | Option.none => st1
        | some b =>
          if cfg.excludeBranches.contains b then st1
          else if cfg.validationLevel ≠ ValidationLevel.none ∧ ev.hasBlockingProblems = true
          then st1
          else { st1 with commitTimer := some (ev.time + cfg.autoCommitDelay, c) }

/-- Fire the pending timer if its fire time has been reached by time `t`:
returns the commit-cycle invocations (fire time and target directory). -/
def fireDue (t : Nat) (st : SchedState) : List (Nat × String) × SchedState :=
  match st.commitTimer with
  | some (ft, c) => if ft ≤ t then ([(ft, c)], { st with commitTimer := Option.none }) else ([], st)
  | Option.none => ([], st)

/-- Run a time-ordered list of save events: before each event the pending
timer fires if due, then the event is handled. -/
def runSaves (cfg : SchedCfg) : List SaveEvent → SchedState → List (Nat × String) × SchedState
  | [], st => ([], st)
  | ev :: rest, st =>
    let f := fireDue ev.time st
    let st2 := onFileSaved cfg ev f.2
    let r := runSaves cfg rest st2
    (f.1 ++ r.1, r.2)

/-- All commit-cycle invocations of a run, letting the clock run past the last
pending fire time afterwards. -/
def commitFirings (cfg : SchedCfg) (evs : List SaveEvent) (st : SchedState) :
    List (Nat × String) :=
  let r := runSaves cfg evs st
  r.1 ++ (match r.2.commitTimer with | some (ft, c) => [(ft, c)] | Option.none => [])

/-- A save event that passes every gate of `onFileSaved`. -/
def Qualifies (cfg : SchedCfg) (ev : SaveEvent) : Prop :=
  (∃ c, ev.cwd = some c) ∧
  cfg.filePatternMatch ev.relativePath = true ∧
  (∃ b, ev.branch = some b ∧ cfg.excludeBranches.contains b = false) ∧
  (cfg.validationLevel = ValidationLevel.none ∨ ev.hasBlockingProblems = false)

/-- Each event arrives strictly before the pending timer would fire; the
bound starts at `ft` and is re-armed to `time + delay` by each event. -/
def ChainedFrom (cfg : SchedCfg) : Nat → List SaveEvent → Prop
  | _, [] => True
  | ft, ev :: rest => ev.time < ft ∧ ChainedFrom cfg (ev.time + cfg.autoCommitDelay) rest

/-- Saves within the idle window of each other. -/
def Coalesced (cfg : SchedCfg) : List SaveEvent → Prop
  | [] => True
  | ev :: rest => ChainedFrom cfg (ev.time + cfg.autoCommitDelay) rest

theorem onFileSaved_qualifying (cfg : SchedCfg) (ev : SaveEvent) (st : SchedState)
    (c b : String) (hen : st.enabled = true) (hc : ev.cwd = some c)
    (hm : cfg.filePatternMatch ev.relativePath = true) (hb : ev.branch = some b)
    (hxb : cfg.excludeBranches.contains b = false)
    (hv : cfg.validationLevel = ValidationLevel.none ∨ ev.hasBlockingProblems = false) :
    onFileSaved cfg ev st =
      { st with preferredWorkingDirectory := some c,
                lastSavedPath := some ev.relativePath,
                commitTimer := some (ev.time + cfg.autoCommitDelay, c) } := by
  rw [onFileSaved, if_neg (by simp [hen]), hc]
  simp only [hm, Bool.true_eq_false, if_false, hb]
  rw [if_neg (by simpa using hxb), if_neg (by
    rcases hv with h | h
    · simp [h]
    · simp [h])]

theorem commitFirings_cons (cfg : SchedCfg) (ev : SaveEvent) (rest : List SaveEvent)
    (st : SchedState) (hf : fireDue ev.time st = ([], st)) :
    commitFirings cfg (ev :: rest) st = commitFirings cfg rest (onFileSaved cfg ev st) := by
  rw [commitFirings, commitFirings, runSaves]
  simp [hf]

theorem runSaves_coalesce (cfg : SchedCfg) (evs : List SaveEvent) :
    ∀ (ft : Nat) (c0 : String) (st : SchedState), st.enabled = true →
      st.commitTimer = some (ft, c0) →
      (∀ ev ∈ evs, Qualifies cfg ev) → ChainedFrom cfg ft evs →
      ∀ (h : evs ≠ []) (c : String), (evs.getLast h).cwd = some c →
        commitFirings cfg evs st =
          [((evs.getLast h).time + cfg.autoCommitDelay, c)] := by
  induction evs with
  | nil => intro ft c0 st hen htimer hq hch h; exact absurd rfl h
  | cons ev rest ih =>
    intro ft c0 st hen htimer hq hch h c hlast
    simp only [ChainedFrom] at hch
    obtain ⟨hlt, hch2⟩ := hch
    obtain ⟨⟨cw, hcw⟩, hm, ⟨b, hb, hxb⟩, hv⟩ := hq ev (by simp)
    have hfire : fireDue ev.time st = ([], st) := by
      rw [fireDue, htimer]
      exact if_neg (by omega)
    have hsave := onFileSaved_qualifying cfg ev st cw b hen hcw hm hb hxb hv
    rw [commitFirings_cons cfg ev rest st hfire, hsave]
    cases rest with
    | nil =>
      have hev : (([ev] : List SaveEvent).getLast h) = ev := rfl
      rw [hev] at hlast
      rw [hcw] at hlast
      injection hlast with hc
      rw [commitFirings, runSaves]
      simp [hev, hc]
    | cons ev2 rest2 =>
      have hne2 : ev2 :: rest2 ≠ [] := by simp
      have hgl : ((ev :: ev2 :: rest2).getLast h) = ((ev2 :: rest2).getLast hne2) :=
        List.getLast_cons hne2
      rw [hgl] at hlast ⊢
      exact ih (ev.time + cfg.autoCommitDelay) cw
        { st with preferredWorkingDirectory := some cw,
                  lastSavedPath := some ev.relativePath,
                  commitTimer := some (ev.time + cfg.autoCommitDelay, cw) } hen rfl
        (fun x hx => hq x (by simp [hx])) hch2 hne2 c hlast

/-- Claim C1: for a nonempty sequence of qualifying saves in which each save
arrives within the configured delay of the previous one (so before the
pending timer fires), exactly one commit-cycle invocation results, at the
last save's time plus the delay, targeting the repository resolved for the
last save; every earlier pending timer is cancelled by the next save. -/
theorem debounce_coalescing (cfg : SchedCfg) (st : SchedState) (evs : List SaveEvent)
    (c : String) (hen : st.enabled = true) (ht : st.commitTimer = Option.none)
    (hne : evs ≠ []) (hq : ∀ ev ∈ evs, Qualifies cfg ev) (hco : Coalesced cfg evs)
    (hlast : (evs.getLast hne).cwd = some c) :
    commitFirings cfg evs st =
      [((evs.getLast hne).time + cfg.autoCommitDelay, c)] ∧
    (commitFirings cfg evs st).length = 1 := by
  have hmain : commitFirings cfg evs st =
      [((evs.getLast hne).time + cfg.autoCommitDelay, c)] := by
    cases evs with
    | nil => exact absurd rfl hne
    | cons ev rest =>
      simp only [Coalesced] at hco
      obtain ⟨⟨cw, hcw⟩, hm, ⟨b, hb, hxb⟩, hv⟩ := hq ev (by simp)
      have hfire : fireDue ev.time st = ([], st) := by
        rw [fireDue, ht]
      have hsave := onFileSaved_qualifying cfg ev st cw b hen hcw hm hb hxb hv
      rw [commitFirings_cons cfg ev rest st hfire, hsave]
      cases rest with
      | nil =>
        have hev : (([ev] : List SaveEvent).getLast hne) = ev := rfl
        rw [hev] at hlast
        rw [hcw] at hlast
        injection hlast with hc
        rw [commitFirings, runSaves]
        simp [hev, hc]
      | cons ev2 rest2 =>
        have hne2 : ev2 :: rest2 ≠ [] := by simp
        have hgl : ((ev :: ev2 :: rest2).getLast hne) = ((ev2 :: rest2).getLast hne2) :=
          List.getLast_cons hne2
        rw [hgl] at hlast ⊢
        exact runSaves_coalesce cfg (ev2 :: rest2) (ev.time + cfg.autoCommitDelay) cw
          { st with preferredWorkingDirectory := some cw,
                    lastSavedPath := some ev.relativePath,
                    commitTimer := some (ev.time + cfg.autoCommitDelay, cw) } hen rfl
          (fun x hx => hq x (by simp [hx])) hco hne2 c hlast
  exact ⟨hmain, by rw [hmain]; rfl⟩

/-- Claim C1 witness: three saves 10 time units apart with a 30-unit delay
yield exactly one firing, 30 units after the last save, at its repository. -/
theorem debounce_coalescing_witness :
    commitFirings
      { autoCommitDelay := 30, filePatternMatch := fun _ => true, excludeBranches := [],
        validationLevel := ValidationLevel.none }
      [⟨0, "a.ts", some "/repo", some "main", false⟩,
       ⟨10, "b.ts", some "/repo", some "main", false⟩,
       ⟨20, "c.ts", some "/repo2", some "main", false⟩]
      ⟨true, Option.none, Option.none, Option.none⟩ = [(50, "/repo2")] :=
  (debounce_coalescing _ _ _ "/repo2" rfl rfl (by simp)
    (by
      intro ev hev
      simp only [List.mem_cons] at hev
      rcases hev with rfl | rfl | rfl | hev
      · exact ⟨⟨"/repo", rfl⟩, rfl, ⟨"main", rfl, rfl⟩, Or.inl rfl⟩
      · exact ⟨⟨"/repo", rfl⟩, rfl, ⟨"main", rfl, rfl⟩, Or.inl rfl⟩
      · exact ⟨⟨"/repo2", rfl⟩, rfl, ⟨"main", rfl, rfl⟩, Or.inl rfl⟩
      · cases hev)
    (by constructor <;> simp [ChainedFrom]) (by rfl)).1

/-! ## Embedding of the executable locator (AuthManager.findCliPath)

The process environment (platform, subprocess outcomes, filesystem) is a
`LocEnv` record.  The locator never throws: all lookup failures are absorbed,
so the model is a total function returning an `Option`.  The provenance
component records which strategy produced the result, matching the log line
at each return site of the source. -/

/-- Outcome of running the bare command with `--version` (strategy 1). -/
inductive DirectRunResult
  | ok
  | enoent
  | otherFailure
deriving DecidableEq, Repr

/-- Which strategy of `findCliPath` resolved the tool. -/
inductive Provenance
  | direct
  | whichLookup
  | knownDir
deriving DecidableEq, Repr

/-- The external world of the locator: the platform, the outcome of the
direct invocation, the stdout of `which` (`none` when it throws), the scanned
directory lists, and filesystem accessibility. -/
structure LocEnv where
  platformWin : Bool
  direct : DirectRunResult
  whichStdout : Option String
  knownDirs : List String
  nvmDirs : List String
  fileExists : String → Bool

/-- `AuthManager.findCommandViaWhich`: skipped on Windows; the trimmed stdout
when non-empty; `none` when `which` fails or prints nothing. -/
def findCommandViaWhich (env : LocEnv) : Option String :=
  if env.platformWin then Option.none
  else
    match env.whichStdout with
    | Option.none => Option.none
    | some out =>
      let p := String.mk (jsTrim out.data)
      if p.length > 0 then some p else Option.none

/-- `AuthManager.getCommandCandidates`: platform-specific filename variants. -/
def getCommandCandidates (env : LocEnv) (command : String) : List String :=
  if env.platformWin = false then [command]
  else [command ++ ".exe", command ++ ".cmd", command ++ ".bat", command]

/-- The inner candidate loop of `findInKnownDirs` for one directory
(`path.join` is modelled with a single separator). -/
def firstHitIn (env : LocEnv) (dir : String) : List String → Option String
  | [] => Option.none
  | cand :: cs =>
    let full := dir ++ "/" ++ cand
    if env.fileExists full then some full else firstHitIn env dir cs

/-- The outer directory loop of `findInKnownDirs`. -/
def scanDirs (env : LocEnv) (candidates : List String) : List String → Option String
  | [] => Option.none
  | dir :: rest =>
    match firstHitIn env dir candidates with
    | some p => some p
    | Option.none => scanDirs env candidates rest

/-- `AuthManager.findInKnownDirs`: scan the known install directories plus
the dynamically enumerated nvm version directories for a candidate filename. -/
def findInKnownDirs (env : LocEnv) (command : String) : Option String :=
  scanDirs env (getCommandCandidates env command) (env.knownDirs ++ env.nvmDirs)

/-- `AuthManager.findCliPath`: try the bare command (a non-ENOENT failure
still counts as found), then the `which` lookup, then the directory scan;
`none` when every strategy misses. -/
def findCliPath (env : LocEnv) (command : String) : Option (String × Provenance) :=
  match env.direct with
  | .ok => some (command, .direct)
  | .otherFailure => some (command, .direct)
  | .enoent =>
    match findCommandViaWhich env with
    | some p => some (p, .whichLookup)
    | Option.none =>
      match findInKnownDirs env command with
      | some p => some (p, .knownDir)
      | Option.none => Option.none

theorem firstHitIn_exists (env : LocEnv) (dir : String) :
    ∀ (cands : List String) (p : String), firstHitIn env dir cands = some p →
      env.fileExists p = true := by
  intro cands
  induction cands with
  | nil => intro p h; simp [firstHitIn] at h
  | cons cand cs ih =>
    intro p h
    rw [firstHitIn] at h
    by_cases hx : env.fileExists (dir ++ "/" ++ cand) = true
    · rw [if_pos hx] at h
      injection h with h
      rw [← h]
      exact hx
    · rw [if_neg (by simpa using hx)] at h
      exact ih p h

theorem scanDirs_exists (env : LocEnv) (candidates : List String) :
    ∀ (dirs : List String) (p : String), scanDirs env candidates dirs = some p →
      env.fileExists p = true := by
  intro dirs
  induction dirs with
  | nil => intro p h; simp [scanDirs] at h
  | cons dir rest ih =>
    intro p h
    rw [scanDirs] at h
    rcases hf : firstHitIn env dir candidates with _ | q
    · rw [hf] at h
      exact ih p h
    · rw [hf] at h
      injection h with h
      rw [← h]
      exact firstHitIn_exists env dir candidates q hf

theorem firstHitIn_none (env : LocEnv) (dir : String) :
    ∀ (cands : List String), (∀ cand ∈ cands, env.fileExists (dir ++ "/" ++ cand) = false) →
      firstHitIn env dir cands = Option.none := by
  intro cands
  induction cands with
  | nil => intro _; rfl
  | cons cand cs ih =>
    intro h
    rw [firstHitIn, if_neg (by simp [h cand (by simp)]), ih (fun x hx => h x (by simp [hx]))]

theorem scanDirs_none (env : LocEnv) (candidates : List String) :
    ∀ (dirs : List String),
      (∀ d ∈ dirs, ∀ cand ∈ candidates, env.fileExists (d ++ "/" ++ cand) = false) →
      scanDirs env candidates dirs = Option.none := by
  intro dirs
  induction dirs with
  | nil => intro _; rfl
  | cons dir rest ih =>
    intro h
    rw [scanDirs, firstHitIn_none env dir candidates (fun cand hc => h dir (by simp) cand hc),
      ih (fun d hd cand hc => h d (by simp [hd]) cand hc)]

/-- Claim C8: the locator tries direct invocation (ENOENT is a miss, any other
failure a hit), then the `which` lookup (skipped on Windows), then the known-
directory scan, short-circuiting with the matching provenance; a scanned hit
is a path the filesystem reports accessible; and a tool absent everywhere
resolves to `none` — the locator is total, absorbing all lookup failures. -/
theorem locator_fallback_chain (env : LocEnv) (command : String) :
    (env.direct = DirectRunResult.ok →
      findCliPath env command = some (command, Provenance.direct)) ∧
    (env.direct = DirectRunResult.otherFailure →
      findCliPath env command = some (command, Provenance.direct)) ∧
    (env.platformWin = true → findCommandViaWhich env = Option.none) ∧
    (∀ p, env.direct = DirectRunResult.enoent → findCommandViaWhich env = some p →
      findCliPath env command = some (p, Provenance.whichLookup)) ∧
    (∀ p, env.direct = DirectRunResult.enoent → findCommandViaWhich env = Option.none →
      findInKnownDirs env command = some p →
      findCliPath env command = some (p, Provenance.knownDir) ∧ env.fileExists p = true) ∧
    (env.direct = DirectRunResult.enoent → findCommandViaWhich env = Option.none →
      (∀ d ∈ env.knownDirs ++ env.nvmDirs, ∀ cand ∈ getCommandCandidates env command,
        env.fileExists (d ++ "/" ++ cand) = false) →
      findCliPath env command = Option.none) := by
  refine ⟨?_, ?_, ?_, ?_, ?_, ?_⟩
  · intro h; rw [findCliPath, h]
  · intro h; rw [findCliPath, h]
  · intro h; rw [findCommandViaWhich, if_pos (by simp [h])]
  · intro p hd hw; rw [findCliPath, hd, hw]
  · intro p hd hw hk
    refine ⟨by rw [findCliPath, hd, hw, hk], ?_⟩
    exact scanDirs_exists env (getCommandCandidates env command) _ p hk
  · intro hd hw habs
    rw [findCliPath, hd, hw, findInKnownDirs,
      scanDirs_none env (getCommandCandidates env command) _ (fun d hdm cand hc =>
        habs d hdm cand hc)]

/-- Claim C8 witness: a tool missing from PATH and from `which` but present
in a known install directory resolves to the scanned path with the scan
provenance. -/
theorem locator_fallback_chain_witness :
    findCliPath
      { platformWin := false, direct := DirectRunResult.enoent, whichStdout := Option.none,
        knownDirs := ["/usr/local/bin", "/opt/homebrew/bin"], nvmDirs := [],
        fileExists := fun p => p = "/opt/homebrew/bin/claude" } "claude" =
      some ("/opt/homebrew/bin/claude", Provenance.knownDir) :=
  ((locator_fallback_chain
    { platformWin := false, direct := DirectRunResult.enoent, whichStdout := Option.none,
      knownDirs := ["/usr/local/bin", "/opt/homebrew/bin"], nvmDirs := [],
      fileExists := fun p => p = "/opt/homebrew/bin/claude" } "claude").2.2.2.2.1
    "/opt/homebrew/bin/claude" rfl rfl (by decide)).1

/-! ## Interleaving model of GitManager.push

Under the JavaScript event loop every `await` is a suspension point: the code
between two awaits runs atomically, and other invocations may run in
between.  `pushStep` renders `GitManager.push` as a program-counter machine
whose steps are exactly the code segments between awaits (the chained pull of
`autoPull = "onPush"` is inlined at pc 5–9; a segment that merely returns is
merged with its caller's continuation).  The shared state is the `GitManager`
fields every invocation sees; locals are per-invocation. -/

/-- Shared mutable `GitManager` fields visible to concurrent invocations. -/
structure SharedState where
  isPushing : Bool
  isPulling : Bool
  preferredWorkingDirectory : Option String
deriving DecidableEq, Repr

/-- Per-invocation state of one `push` call: program counter, locals, and the
returned value once finished (pc 100). -/
structure PushLocal where
  pc : Nat
  cwd : Option String
  branch : String
  pullFinished : Bool
  pullCwd : Option String
  retv : Option Bool
deriving DecidableEq, Repr

/-- `resolveWorkingDirectory` against the shared state. -/
def resolveShared (env : GitEnv) (sh : SharedState) (o : Option String) :
    Option String × SharedState :=
  match o with
  | some c => (some c, { sh with preferredWorkingDirectory := some c })
  | Option.none =>
    match sh.preferredWorkingDirectory with
    | some p => (some p, sh)
    | Option.none =>
      match env.resolveCwd with
      | some c => (some c, { sh with preferredWorkingDirectory := some c })
      | Option.none => (Option.none, sh)

/-- One atomic segment of `GitManager.push`.
pc 0: the synchronous entry — flag check, then the working-directory
resolution call (first suspension).  pc 1: enter the try, call `hasRemote`
(suspension).  pc 2: on a remote, set the pushing flag, fire syncing, call
`getCurrentBranch` (suspension).  pc 3: call `hasUpstream` (suspension).
pc 4: issue the push command (suspension).  pc 5–9: handle the push outcome
and the inlined chained pull.  pc 100: finished. -/
def pushStep (cfg : Config) (env : GitEnv) (o : Option String) (sh : SharedState)
    (l : PushLocal) (eff : Effects) : SharedState × PushLocal × Effects :=
  match l.pc with
  | 0 =>
    if sh.isPushing then (sh, { l with retv := some false, pc := 100 }, eff)
    else
      let r := resolveShared env sh o
      (r.2, { l with cwd := r.1, pc := 1 }, eff)
  | 1 =>
    match l.cwd with
    | Option.none => (sh, { l with retv := some false, pc := 100 }, eff)
    | some _ => (sh, { l with pc := 2 }, eff.gitCmd ["remote"])
  | 2 =>
    if env.hasRemote = false then (sh, { l with retv := some false, pc := 100 }, eff)
    else
      ({ sh with isPushing := true }, { l with pc := 3 },
        (eff.fire .syncing).gitCmd branchCmd)
  | 3 =>
    match env.currentBranch with
    | .error _ =>
      ({ sh with isPushing := false }, { l with retv := some false, pc := 100 },
        eff.fire .error)
    | .ok b => (sh, { l with branch := b, pc := 4 }, eff.gitCmd upstreamCmd)
  | 4 =>
    let args :=
      if env.hasUpstream = false then ["push", "-u", "origin", l.branch]
      else pushModeArgs cfg.pushMode
    (sh, { l with pc := 5 }, eff.gitCmd args)
  | 5 =>
    match env.pushError with
    | some _ =>
      ({ sh with isPushing := false }, { l with retv := some false, pc := 100 },
        eff.fire .error)
    | Option.none =>
      if cfg.autoPull = .onPush then
        if sh.isPulling then (sh, { l with pullFinished := true, pc := 6 }, eff)
        else
          let r := resolveShared env sh l.cwd
          (r.2, { l with pullCwd := r.1, pc := 6 }, eff)
      else
        ({ sh with isPushing := false }, { l with retv := some true, pc := 100 },
          eff.fire .enabled)
  | 6 =>
    if l.pullFinished then
      ({ sh with isPushing := false }, { l with retv := some true, pc := 100 },
        eff.fire .enabled)
    else
      match l.pullCwd with
      | Option.none =>
        ({ sh with isPushing := false }, { l with retv := some true, pc := 100 },
          eff.fire .enabled)
      | some _ => (sh, { l with pc := 7 }, eff.gitCmd ["remote"])
  | 7 =>
    if env.hasRemote = false then
      ({ sh with isPushing := false }, { l with retv := some true, pc := 100 },
        eff.fire .enabled)
    else (sh, { l with pc := 8 }, eff.gitCmd upstreamCmd)
  | 8 =>
    if env.hasUpstream = false then
      ({ sh with isPushing := false }, { l with retv := some true, pc := 100 },
        eff.fire .enabled)
    else
      ({ sh with isPulling := true }, { l with pc := 9 },
        ((eff.fire .syncing).gitCmd ["pull", "--rebase"]))
  | 9 =>
    match env.pullError with
    | Option.none =>
      ({ sh with isPulling := false, isPushing := false },
        { l with retv := some true, pc := 100 },
        (eff.fire .enabled).fire .enabled)
    | some _ =>
      ({ sh with isPulling := false, isPushing := false },
        { l with retv := some true, pc := 100 },
        (eff.fire .error).fire .enabled)
  | _ => (sh, l, eff)

/-- The not-yet-started invocation. -/
def initPushLocal : PushLocal :=
  ⟨0, Option.none, "", false, Option.none, Option.none⟩

/-- Run two concurrent `push` invocations under an explicit schedule: each
`true` runs one segment of the first invocation, each `false` one segment of
the second. -/
def runTwoPushes (cfg : Config) (env : GitEnv) (o1 o2 : Option String) :
    List Bool → SharedState → PushLocal → PushLocal → Effects →
      SharedState × PushLocal × PushLocal × Effects
  | [], sh, l1, l2, eff => (sh, l1, l2, eff)
  | pick :: rest, sh, l1, l2, eff =>
    if pick then
      let r := pushStep cfg env o1 sh l1 eff
      runTwoPushes cfg env o1 o2 rest r.1 r.2.1 l2 r.2.2
    else
      let r := pushStep cfg env o2 sh l2 eff
      runTwoPushes cfg env o1 o2 rest r.1 l1 r.2.1 r.2.2

/-- Claim C3 counterexample: with the flag set only after the awaited
directory resolution and remote check, two interleaved push invocations both
pass the flag check and both issue a push command — the run ends with two
push commands in the trace and both invocations returning true. -/
theorem interleaved_pushes_both_execute :
    ((runTwoPushes sampleCfg sampleEnv (some "/repo") (some "/repo")
        [true, false, true, false, true, false, true, false, true, false, true, false]
        ⟨false, false, Option.none⟩ initPushLocal initPushLocal
        Effects.empty).2.2.2).git.filter (fun a => a.head? == some "push") =
      [["push"], ["push"]] ∧
    (runTwoPushes sampleCfg sampleEnv (some "/repo") (some "/repo")
        [true, false, true, false, true, false, true, false, true, false, true, false]
        ⟨false, false, Option.none⟩ initPushLocal initPushLocal
        Effects.empty).2.1.retv = some true ∧
    (runTwoPushes sampleCfg sampleEnv (some "/repo") (some "/repo")
        [true, false, true, false, true, false, true, false, true, false, true, false]
        ⟨false, false, Option.none⟩ initPushLocal initPushLocal
        Effects.empty).2.2.1.retv = some true := by
  refine ⟨by decide, by decide, by decide⟩

theorem resolveShared_flags (env : GitEnv) (sh : SharedState) (o : Option String) :
    (resolveShared env sh o).2.isPushing = sh.isPushing ∧
    (resolveShared env sh o).2.isPulling = sh.isPulling := by
  rcases o with _ | c
  · rcases hp : sh.preferredWorkingDirectory with _ | p
    · rcases hc : env.resolveCwd with _ | c <;> simp [resolveShared, hp, hc]
    · simp [resolveShared, hp]
  · simp [resolveShared]

/-- Claim C3 (amended): the pushing flag is checked synchronously in the entry
segment, before the first suspension point — an invocation that sees it set
finishes at once with false and no effects — but the flag is only set two
suspension points later (after the awaited directory resolution and remote
check): the entry segment and the post-resolution segment never change the
shared state, and consequently an interleaving exists in which two push
invocations both pass the check and both issue their push command. -/
theorem push_flag_checked_at_entry_set_after_suspension :
    (∀ (cfg : Config) (env : GitEnv) (o : Option String) (sh : SharedState)
        (l : PushLocal) (eff : Effects), l.pc = 0 → sh.isPushing = true →
      pushStep cfg env o sh l eff = (sh, { l with retv := some false, pc := 100 }, eff)) ∧
    (∀ (cfg : Config) (env : GitEnv) (o : Option String) (sh : SharedState)
        (l : PushLocal) (eff : Effects), l.pc = 0 →
      (pushStep cfg env o sh l eff).1.isPushing = sh.isPushing ∧
      (pushStep cfg env o sh l eff).2.2 = eff) ∧
    (∀ (cfg : Config) (env : GitEnv) (o : Option String) (sh : SharedState)
        (l : PushLocal) (eff : Effects), l.pc = 1 →
      (pushStep cfg env o sh l eff).1 = sh) ∧
    (((runTwoPushes sampleCfg sampleEnv (some "/a") (some "/b")
        [false, true, false, true, false, true, false, true, false, true, false, true]
        ⟨false, false, Option.none⟩ initPushLocal initPushLocal
        Effects.empty).2.2.2).git.filter (fun a => a.head? == some "push") =
      [["push"], ["push"]]) := by
  refine ⟨?_, ?_, ?_, by decide⟩
  · intro cfg env o sh l eff hl hp
    simp [pushStep, hl, hp]
  · intro cfg env o sh l eff hl
    by_cases hp : sh.isPushing
    · simp [pushStep, hl, hp]
    · simp only [pushStep, hl]
      rw [if_neg hp]
      exact ⟨(resolveShared_flags env sh o).1, rfl⟩
  · intro cfg env o sh l eff hl
    rcases hc : l.cwd with _ | c <;> simp [pushStep, hl, hc]

/-- Claim C3 amended-theorem witness: the entry-segment flag check applied at
a concrete state with the flag set. -/
theorem push_flag_checked_at_entry_witness :
    pushStep sampleCfg sampleEnv (some "/repo") ⟨true, false, Option.none⟩ initPushLocal
        Effects.empty =
      (⟨true, false, Option.none⟩,
        { initPushLocal with retv := some false, pc := 100 }, Effects.empty) :=
  push_flag_checked_at_entry_set_after_suspension.1 sampleCfg sampleEnv (some "/repo")
    ⟨true, false, Option.none⟩ initPushLocal Effects.empty rfl rfl

end GitDocAI
